import Mathlib

namespace EseDB

/-!
# Verification of the ESE database reader core (dissect.esedb)

A shallow embedding of the core decoding and navigation layer of the
dissect.esedb repository: the pager (`esedb.py`), B+ tree search
(`btree.py`), page-tree traversal (`page.py`), index key construction
(`index.py`), long-value reassembly (`table.py`), compression headers
(`compression.py`) and the record decoder (`record.py`).  Bytes are
modelled as `List Nat` (each entry a value `< 256` in well-formed input),
Python integers as `Nat`/`Int`, and fallible operations as
`Option`/`Except`.  Loops that the source expresses with `while` are
modelled with an explicit fuel argument so that every definition remains
executable; the theorems below establish that the fuel chosen at each
call site is sufficient.
-/

/-- Python raised exceptions that the embedded fragments can produce. -/
inductive PyErr where
  | typeError
  | unboundLocal
  | structError
  | keyNotFound
  | notImplemented
  | indexError
  | invalidDatabase
  | pageOutOfRange
  | noNeighbourPage
  deriving DecidableEq, Repr

/-! ## Byte-string comparison

`btree.find_node` compares keys with Python's `<` on `bytes`, which is
lexicographic byte order with the shorter string first on ties. -/

/-- Lexicographic strict order on byte strings, exactly Python's `<` on
`bytes`: the first differing byte decides, and a proper prefix is
smaller. -/
def bytesLt : List Nat → List Nat → Bool
  | _, [] => false
  | [], _ :: _ => true
  | a :: as, b :: bs => a < b || (a == b && bytesLt as bs)

/-! ## The database header check (`esedb.py`, `EseDB.__init__`) -/

/-- `ulDAEMagic` from `c_esedb.py`. -/
def ulDAEMagic : Nat := 0x89ABCDEF

/-- The header fields that `EseDB.__init__` inspects. -/
structure DbHeader where
  ulMagic : Nat
  cbPageSize : Nat
  ulDaeUpdateMajor : Nat
  ulDaeUpdateMinor : Nat
  deriving DecidableEq, Repr

/-- The validation performed by `EseDB.__init__` (`esedb.py` lines
30-46).  `hasValidShadow` records whether the byte source contains a
valid shadow header; the source code never consults it, the parameter is
present only so that the specification's claimed condition can be stated
against the same inputs. -/
def esedbInit (hdr : DbHeader) (_hasValidShadow : Bool) : Except PyErr Unit :=
  if hdr.ulMagic ≠ ulDAEMagic then .error .invalidDatabase
  else if hdr.ulDaeUpdateMajor < 9 then .error .invalidDatabase
  else .ok ()

/-- The failure condition stated by the specification (§7 and §3): magic
mismatch, format major revision below 9, or no valid shadow header.
This definition follows the specification's words; it is compared with
`esedbInit`, which follows the source. -/
def specInvalidDatabaseCond (hdr : DbHeader) (hasValidShadow : Bool) : Bool :=
  (hdr.ulMagic ≠ ulDAEMagic) || (hdr.ulDaeUpdateMajor < 9) || (!hasValidShadow)

/-! ## The pager (`esedb.py`, `read_page` and `page`) -/

/-- `EseDB.read_page` (`esedb.py` lines 65-83): seek to
`(num - 1) * page_size`, read `page_size` bytes, and fail when the page
number is below 1 or the read comes up short. -/
def readPage (file : List Nat) (pageSize : Nat) (num : Nat) :
    Except PyErr (List Nat) :=
  if num < 1 then .error .pageOutOfRange
  else if ((file.drop ((num - 1) * pageSize)).take pageSize).length ≠ pageSize
    then .error .pageOutOfRange
  else .ok ((file.drop ((num - 1) * pageSize)).take pageSize)

/-- `EseDB.page` (`esedb.py` lines 85-96) restricted to the bytes it
parses: the logical page `num` is read from physical page `num + 2`. -/
def pageBytes (file : List Nat) (pageSize : Nat) (num : Nat) :
    Except PyErr (List Nat) :=
  readPage file pageSize (num + 2)

/-! ## Compression headers (`compression.py`) -/

/-- `COMPRESSION_SCHEME` constants from `c_esedb.py`. -/
def COMPRESS_7BITASCII : Nat := 0x1
def COMPRESS_7BITUNICODE : Nat := 0x2
def COMPRESS_XPRESS : Nat := 0x3
def COMPRESS_XPRESS9 : Nat := 0x5
def COMPRESS_XPRESS10 : Nat := 0x6

/-- `struct.unpack("<H", bs)`: exactly two bytes are required, otherwise
`struct.error` is raised. -/
def unpackU16le (bs : List Nat) : Except PyErr Nat :=
  match bs with
  | [a, b] => .ok (a + 256 * b)
  | _ => .error .structError

/-- `decompress_size` (`compression.py` lines 32-50).  The scheme is the
high 5 bits of byte 0.  Note that the XPRESS branch unpacks `buf[1:2]`,
a one-byte slice.  `none` models the final `return None`. -/
def decompressSize (buf : List Nat) : Except PyErr (Option Nat) :=
  match buf with
  | [] => .error .indexError
  | b0 :: _ =>
    let identifier := b0 >>> 3
    if identifier = COMPRESS_7BITASCII then
      .ok (some (((b0 &&& 7) + 8 * buf.length) / 7))
    else if identifier = COMPRESS_7BITUNICODE then
      .ok (some (2 * (((b0 &&& 7) + 8 * buf.length) / 7)))
    else if identifier = COMPRESS_XPRESS then
      match unpackU16le ((buf.drop 1).take 1) with
      | .ok v => .ok (some v)
      | .error e => .error e
    else if identifier = COMPRESS_XPRESS9 ∨ identifier = COMPRESS_XPRESS10 then
      .error .notImplemented
    else
      .ok none

/-! ## The index key budget (`index.py`, `Index.make_key`)

`make_key` walks the index columns in order; for each column present in
the supplied value mapping it appends the segment produced by
`encode_key` and subtracts its length from the remaining budget,
stopping at the first absent column or once the budget is exhausted.
The per-column segments are abstracted as the list `segs`, with `none`
marking the first column missing from `values`. -/

/-- The accumulation loop of `make_key` (`index.py` lines 96-109):
returns the appended segments together with the final `key_remaining`. -/
def makeKeyLoop : List (Option (List Nat)) → Int → List (List Nat) × Int
  | [], r => ([], r)
  | none :: _, r => ([], r)
  | some seg :: rest, r =>
    let r' := r - seg.length
    if r' ≤ 0 then ([seg], r')
    else
      let (ps, rf) := makeKeyLoop rest r'
      (seg :: ps, rf)

/-- `Index.make_key` (`index.py` lines 90-113): join the appended
segments and truncate to `keyMost` when the final budget is negative. -/
def makeKey (segs : List (Option (List Nat))) (keyMost : Nat) : List Nat :=
  let pr := makeKeyLoop segs (keyMost : Int)
  if pr.2 < 0 then pr.1.flatten.take keyMost else pr.1.flatten

/-- The concatenation of every per-column encoded segment (up to the
first column absent from the value mapping), with no budget applied. -/
def fullSegments : List (Option (List Nat)) → List (List Nat)
  | [] => []
  | none :: _ => []
  | some seg :: rest => seg :: fullSegments rest

def fullKey (segs : List (Option (List Nat))) : List Nat :=
  (fullSegments segs).flatten

/-! ## Header validation: the InvalidDatabase condition (C4) -/

/-- A header with valid magic and a supported revision, over a file with
no valid shadow header. -/
def hdrNoShadow : DbHeader := ⟨ulDAEMagic, 4096, 0x620, 20⟩

/-! ## The logical-to-physical page translation (C5) -/

/-- A 16-byte file holding four 4-byte physical pages. -/
def fileFourPages : List Nat :=
  [0, 1, 2, 3, 4, 5, 6, 7, 8, 9, 10, 11, 12, 13, 14, 15]

/-! ## Pages, nodes and the B+ tree cursor (`page.py`, `btree.py`)

A `Node` is modelled by its effective key (prefix + suffix, as computed
by `page.Node.__init__`) and its data bytes; a `Page` by the header
fields the navigation layer reads.  The database is a `Store`: the
function behind `esedb.page`, from logical page numbers to parsed
pages. -/

structure MNode where
  key : List Nat
  data : List Nat
  deriving DecidableEq, Repr, Inhabited

/-- `BranchNode.child` (`page.py` line 258): `struct.unpack("<I",
self.data[:4])`, failing when fewer than four data bytes exist. -/
def nodeChild (n : MNode) : Option Nat :=
  match n.data with
  | a :: b :: c :: d :: _ => some (a + 256 * (b + 256 * (c + 256 * d)))
  | _ => none

structure MPage where
  isLeaf : Bool
  isRoot : Bool
  previousPage : Nat
  nextPage : Nat
  nodes : List MNode
  deriving DecidableEq, Repr, Inhabited

/-- The parsed-page view of the database: `esedb.page` as a function of
the logical page number. -/
def Store := Nat → MPage

/-- The binary-search loop of `find_node` (`btree.py` lines 142-166).
The interval shrinks at every iteration, so any `fuel` exceeding
`last - first` reproduces the `while` loop exactly (`findNodeLoop_exact`
is only ever used with such fuel). -/
def findNodeLoop (nodes : List MNode) (isBranch : Bool) (key : List Nat) :
    Nat → Nat → Nat → Nat
  | 0, first, _ => first
  | fuel + 1, first, last =>
    if first < last then
      let mid := (first + last) / 2
      let nkey := (nodes.getD mid default).key
      if bytesLt key nkey then
        findNodeLoop nodes isBranch key fuel first mid
      else if key = nkey then
        (if isBranch then min (mid + 1) (nodes.length - 1) else mid)
      else
        findNodeLoop nodes isBranch key fuel (mid + 1) last
    else first

/-- `find_node` (`btree.py` lines 135-166), returning the index of the
node the search settles on.  `is_branch = not is_leaf`
(`page.py` line 81); `node_count - 1` is the initial upper bound. -/
def findNodeIdx (p : MPage) (key : List Nat) : Nat :=
  findNodeLoop p.nodes (!p.isLeaf) key p.nodes.length 0 (p.nodes.length - 1)

/-- The descent loop of `BTree.search` (`btree.py` lines 105-132),
returning the cursor post-state `(page_num, node_num)`.  The descent
begins at `self._page` — the cursor's *current* page, not the root. -/
def btSearchPos (s : Store) : Nat → Nat → List Nat → Option (Nat × Nat)
  | 0, _, _ => none
  | fuel + 1, pnum, key =>
    let p := s pnum
    let idx := findNodeIdx p key
    if p.isLeaf then some (pnum, idx)
    else
      match p.nodes[idx]? with
      | none => none
      | some nd =>
        match nodeChild nd with
        | none => none
        | some c => btSearchPos s fuel c key

/-- The mutable cursor state of a `BTree` (`_page_num`, `_node_num`). -/
structure BTreeState where
  pageNum : Nat
  nodeNum : Nat
  deriving DecidableEq, Repr

/-- `BTree.reset` (`btree.py` lines 37-41): back to the root, node 0. -/
def btReset (root : Nat) (_c : BTreeState) : BTreeState := ⟨root, 0⟩

/-- The post-state of `BTree.search` started from the cursor state `c`:
the descent starts at the page the cursor is currently on. -/
def btSearchPost (s : Store) (fuel : Nat) (key : List Nat)
    (c : BTreeState) : Option (Nat × Nat) :=
  btSearchPos s fuel c.pageNum key

/-! ## C2: search and the prior cursor position -/

/-- Root branch page of the three-page counterexample tree: keys `[1]`
and `[2]`, children 2 and 3. -/
def ceRootPage : MPage :=
  ⟨false, true, 0, 0, [⟨[1], [2, 0, 0, 0]⟩, ⟨[2], [3, 0, 0, 0]⟩]⟩

def ceLeafA : MPage := ⟨true, false, 0, 3, [⟨[0], []⟩, ⟨[1], []⟩]⟩

def ceLeafB : MPage := ⟨true, false, 2, 0, [⟨[2], []⟩]⟩

def ceStore : Store := fun n =>
  if n = 1 then ceRootPage
  else if n = 2 then ceLeafA
  else if n = 3 then ceLeafB
  else default

/-! ## C1: `Index.search` and the `Cursor` constructor -/

/-- `Cursor.__init__` (`cursor.py` lines 24-30) accepts exactly one
positional argument, the `Index`. -/
def cursorInitParamCount : Nat := 1

/-- `Index.search_key` (`index.py` lines 72-79).  The source constructs
the cursor as `Cursor(self.esedb, self.root)` — two positional
arguments against `Cursor.__init__`'s single `index` parameter, which
Python rejects with `TypeError` before any search can run.  The
well-typed branch carries the search the call was meant to perform
(`cursor.search(key)`, an exact search). -/
def indexSearchKey (s : Store) (rootPage fuel : Nat) (key : List Nat) :
    Except PyErr (Nat × Nat) :=
  if 2 = cursorInitParamCount then
    match btSearchPos s fuel rootPage key with
    | none => .error .indexError
    | some (pn, ni) =>
      if ((s pn).nodes.getD ni default).key = key then .ok (pn, ni)
      else .error .keyNotFound
  else .error .typeError

/-- `Index.search` (`index.py` lines 63-70): build the key with
`make_key`, then delegate to `search_key`. -/
def indexSearch (s : Store) (rootPage fuel : Nat)
    (segs : List (Option (List Nat))) (keyMost : Nat) :
    Except PyErr (Nat × Nat) :=
  indexSearchKey s rootPage fuel (makeKey segs keyMost)

/-! ## C3: long-value reassembly (`table.py`, `Table.get_long_value`)

After locating the header node, `get_long_value` walks the successor
nodes with `btree.next()` while their keys start with the reversed
token, collecting `(chunk_bytes, chunk_offset)` pairs — the offset is
the big-endian u32 in the last four bytes of each node's key — and then
decides per chunk whether to decompress.  The successor-node stream is
passed in as the list `rest` (the sequence `btree.next()` produces
until the end of the tree). -/

/-- `struct.unpack(">I", node.key[-4:])` (`table.py` line 210). -/
def chunkKeyOffset (key : List Nat) : Option Nat :=
  match key.drop (key.length - 4) with
  | [a, b, c, d] => some (d + 256 * (c + 256 * (b + 256 * a)))
  | _ => none

/-- The chunk nodes: successors whose key starts with the reversed
token (`table.py` lines 200-211, the `while True` collection loop). -/
def lvChunkNodes (rkey : List Nat) (rest : List MNode) : List MNode :=
  rest.takeWhile (fun n => rkey.isPrefixOf n.key)

/-- The per-chunk decompression decision of the reassembly loop
(`table.py` lines 215-222): each pair is `(chunk, next_chunk_offset)`,
and the accumulator is the loop variable `chunk_offset`, updated with
`chunk_offset += next_chunk_offset`. -/
def assembleFlags : List (List Nat × Nat) → Int → List Bool
  | [], _ => []
  | (chunk, nextOff) :: rest, acc =>
    (decide ((chunk.length : Int) ≠ (nextOff : Int) - acc))
      :: assembleFlags rest (acc + nextOff)

/-- Which chunks of a long value `Table.get_long_value` passes to
`compression.decompress`: offsets come from the chunk keys, with the
header's `total_size` appended, and chunk `i` is paired with
`chunk_offsets[i + 1]` (the `zip(chunks, chunk_offsets[1:])` of
`table.py` line 217). -/
def getLongValueFlags (rkey : List Nat) (size : Nat) (rest : List MNode) :
    Option (List Bool) :=
  let nodes := lvChunkNodes rkey rest
  let chunks := nodes.map (·.data)
  match nodes.mapM (fun n => chunkKeyOffset n.key) with
  | none => none
  | some offsets =>
    some (assembleFlags (chunks.zip ((offsets ++ [size]).drop 1)) 0)

/-- The decompression condition stated by the specification (§4.5 step
4) and the claim: chunk `i` is compressed iff its stored size differs
from `next_chunk_offset − current_chunk_offset`, both read from the
chunk keys (`size` standing in for the offset past the last chunk).
This definition follows the claim's words, for comparison with
`getLongValueFlags`, which follows the source. -/
def specChunkFlags (chunks : List (List Nat)) (offsets : List Nat)
    (size : Nat) : List Bool :=
  List.zipWith (fun (c : List Nat) (p : Nat × Nat) =>
      decide ((c.length : Int) ≠ (p.1 : Int) - (p.2 : Int)))
    chunks (((offsets ++ [size]).drop 1).zip offsets)

/-- A three-chunk long value: chunk offsets 0, 10 and 20 (big-endian in
the last four key bytes), ten uncompressed bytes per chunk, total size
30, followed by a node of another long value. -/
def lvRestThree : List MNode :=
  [⟨[1, 2, 3, 4, 0, 0, 0, 0], List.replicate 10 65⟩,
    ⟨[1, 2, 3, 4, 0, 0, 0, 10], List.replicate 10 66⟩,
    ⟨[1, 2, 3, 4, 0, 0, 0, 20], List.replicate 10 67⟩,
    ⟨[9, 9, 9, 9, 0, 0, 0, 0], []⟩]

/-! ## C10: raw record access (`record.py`, `RecordData.get` with `raw=True`)

The record layout model below follows `RecordData.__init__` and the
three `_get_*` helpers.  All byte reads use `getD _ 0`; the slices and
offsets match the source for well-formed records (in particular,
`fidVarLastInRec ≥ 127`, as the record header guarantees). -/

/-- Python slice `l[a : b]` for `0 ≤ a ≤ b ≤ len l`. -/
def pySlice (l : List Nat) (a b : Nat) : List Nat := (l.take b).drop a

/-- `int.from_bytes(data[i : i + 4], "little")`: short reads are
zero-extended, exactly as `int.from_bytes` does. -/
def u32leAt (data : List Nat) (i : Nat) : Nat :=
  data.getD i 0 + 256 * (data.getD (i + 1) 0
    + 256 * (data.getD (i + 2) 0 + 256 * data.getD (i + 3) 0))

/-- The column attributes `RecordData.get` consults: identifier, declared
size, precomputed fixed offset, and default value. -/
structure MColumn where
  identifier : Nat
  size : Nat
  offset : Nat
  default : Option (List Nat)
  deriving DecidableEq, Repr

/-- `Column.is_fixed` (`table.py` line 263). -/
def colIsFixed (c : MColumn) : Bool := c.identifier ≤ 127

/-- `Column.is_variable` (`table.py` line 267). -/
def colIsVariable (c : MColumn) : Bool :=
  127 < c.identifier && c.identifier ≤ 255

/-- `RECHDR.fidFixedLastInRec` (byte 0 of the record data). -/
def rdLastFixedId (data : List Nat) : Nat := data.getD 0 0

/-- `RECHDR.fidVarLastInRec` (byte 1). -/
def rdLastVarId (data : List Nat) : Nat := data.getD 1 0

/-- `RECHDR.ibEndOfFixedData` (little-endian u16 at bytes 2-3). -/
def rdVarOffsetStart (data : List Nat) : Nat :=
  data.getD 2 0 + 256 * data.getD 3 0

/-- The fixed-column null bitmap, `⌈fidFixedLastInRec / 8⌉` bytes ending
at the variable-offsets array (`record.py` lines 115-116). -/
def rdFixedNullBitmap (data : List Nat) : List Nat :=
  pySlice data (rdVarOffsetStart data - (rdLastFixedId data + 7) / 8)
    (rdVarOffsetStart data)

/-- `num_variable = fidVarLastInRec - 127` (`record.py` line 121). -/
def rdNumVariable (data : List Nat) : Nat := rdLastVarId data - 127

/-- `_variable_data_start` (`record.py` line 123). -/
def rdVarDataStart (data : List Nat) : Nat :=
  rdVarOffsetStart data + 2 * rdNumVariable data

/-- The parsed variable end-offset array (`record.py` lines 125-130). -/
def rdVariableOffsets (data : List Nat) : List Nat :=
  if 0 < rdNumVariable data ∧ 4 + 2 * rdNumVariable data ≤ data.length then
    (List.range (rdNumVariable data)).map (fun k =>
      data.getD (rdVarOffsetStart data + 2 * k) 0
        + 256 * data.getD (rdVarOffsetStart data + 2 * k + 1) 0)
  else []

/-- `_tagged_data_start` (`record.py` lines 132-134). -/
def rdTaggedDataStart (data : List Nat) : Nat :=
  rdVarDataStart data +
    (match (rdVariableOffsets data).getLast? with
     | some off => off &&& 0x7FFF
     | none => 0)

/-- A `TAGFLD` entry: identifier in the low 16 bits, raw offset word in
the high 16 bits (`record.py` lines 392-395). -/
structure MTagField where
  identifier : Nat
  rawOffset : Nat
  deriving DecidableEq, Repr

def mkTagField (value : Nat) : MTagField :=
  ⟨value &&& 0xFFFF, (value >>> 16) &&& 0xFFFF⟩

/-- `TagField.offset`: masked with `0x1FFF` on small pages, `0x7FFF` on
large pages (`record.py` lines 397-401). -/
def tfOffset (small : Bool) (tf : MTagField) : Nat :=
  tf.rawOffset &&& (if small then 0x1FFF else 0x7FFF)

/-- `TagField.has_extended_info` (`record.py` lines 399-402). -/
def tfHasExtendedInfo (small : Bool) (tf : MTagField) : Bool :=
  if small then tf.rawOffset &&& 0x4000 ≠ 0 else true

/-- The `TAGFLD_HEADER` flag byte of a tag field (`record.py` lines
404-407), `Invalid = 0` when absent. -/
def tfFlags (data : List Nat) (small : Bool) (tf : MTagField) : Nat :=
  if tfHasExtendedInfo small tf
      ∧ rdTaggedDataStart data + tfOffset small tf ≤ data.length then
    data.getD (rdTaggedDataStart data + tfOffset small tf) 0
  else 0

/-- `TagField.is_null` (`record.py` lines 412-418): on small pages the
`0x2000` bit of the raw offset, otherwise the `Null` (0x20) header
flag. -/
def tfIsNull (data : List Nat) (small : Bool) (tf : MTagField) : Bool :=
  if small then tf.rawOffset &&& 0x2000 ≠ 0
  else tfFlags data small tf &&& 0x20 ≠ 0

/-- `_tagged_data_view[idx]`: the little-endian u32 at entry `idx` of
the `TAGFLD` array. -/
def rdTagFieldValue (data : List Nat) (idx : Nat) : Nat :=
  u32leAt data (rdTaggedDataStart data + 4 * idx)

/-- `_tagged_data_count` (`record.py` lines 136-147): the first entry's
offset divided by 4, or 0 when there is no tagged data. -/
def rdTaggedCount (data : List Nat) (small : Bool) : Nat :=
  if rdTaggedDataStart data + 4 ≤ data.length then
    tfOffset small (mkTagField (rdTagFieldValue data 0)) / 4
  else 0

/-- The `TAGFLD::CmpTagfld2` binary-search loop of `_find_tag_field_idx`
(`record.py` lines 361-375).  The interval shrinks every iteration, so
`fuel = count` reproduces the `while min_idx != max_idx` loop (the
source never enters it with `min_idx > max_idx`). -/
def findTagLoop (data : List Nat) (value2 : Nat) :
    Nat → Nat → Nat → Nat
  | 0, minIdx, _ => minIdx
  | fuel + 1, minIdx, maxIdx =>
    if minIdx < maxIdx then
      let t := minIdx + (maxIdx - minIdx) / 2
      let v1 := 0x80000000 ^^^ (rdTagFieldValue data t &&& 0x8000FFFF)
      if v1 < value2 then findTagLoop data value2 fuel (t + 1) maxIdx
      else if v1 = value2 then t
      else findTagLoop data value2 fuel minIdx t
    else minIdx

/-- `_find_tag_field_idx` (`record.py` lines 336-381) with
`is_derived = False`. -/
def rdFindTagFieldIdx (data : List Nat) (small : Bool) (identifier : Nat) :
    Option Nat :=
  let count := rdTaggedCount data small
  if count = 0 then none
  else
    let value2 := 0x80000000 ^^^ (identifier &&& 0x8000FFFF)
    let minIdx := findTagLoop data value2 count 0 (count - 1)
    if rdTagFieldValue data minIdx &&& 0xFFFF = identifier then some minIdx
    else none

/-- `_get_tagged` (`record.py` lines 303-328).  When the found tag field
is null, the local variable `value` is never assigned before
`return tag_field, value`, so Python raises `UnboundLocalError`. -/
def rdGetTagged (data : List Nat) (small : Bool) (col : MColumn) :
    Except PyErr (Option MTagField × Option (List Nat)) :=
  match rdFindTagFieldIdx data small col.identifier with
  | none => .ok (none, col.default)
  | some idx =>
    let tf := mkTagField (rdTagFieldValue data idx)
    let dataStart := tfOffset small tf
      + (if tfHasExtendedInfo small tf then 1 else 0)
    let dataEnd := if idx + 1 < rdTaggedCount data small
      then tfOffset small (mkTagField (rdTagFieldValue data (idx + 1)))
      else data.length
    if tfIsNull data small tf then .error .unboundLocal
    else .ok (some tf, some (pySlice data
      (rdTaggedDataStart data + dataStart)
      (rdTaggedDataStart data + dataEnd)))

/-- `_get_fixed` (`record.py` lines 256-273). -/
def rdGetFixed (data : List Nat) (col : MColumn) : Option (List Nat) :=
  if col.identifier ≤ rdLastFixedId data then
    if (rdFixedNullBitmap data).getD ((col.identifier - 1) / 8) 0
        &&& (1 <<< ((col.identifier - 1) % 8)) ≠ 0 then none
    else some (pySlice data (4 + col.offset) (4 + col.offset + col.size))
  else col.default

/-- `_get_variable` (`record.py` lines 275-301). -/
def rdGetVariable (data : List Nat) (col : MColumn) : Option (List Nat) :=
  if col.identifier ≤ rdLastVarId data then
    let k := col.identifier - 128
    let valueStart := if k = 0 then 0
      else (rdVariableOffsets data).getD (k - 1) 0 &&& 0x7FFF
    let valueEnd := (rdVariableOffsets data).getD k 0
    if valueEnd &&& 0x8000 = 0 then
      some (pySlice data (rdVarDataStart data + valueStart)
        (rdVarDataStart data + valueEnd))
    else none
  else col.default

/-- `RecordData.get` with `raw=True` (`record.py` lines 151-181,
together with the `__init__` checks of lines 107-149): the value bytes
exactly as stored, the column default, or `None`, with no parsing —
except for the error paths.  `newFmt` is the page's `NewRecordFormat`
flag; a record with tagged data on a pre-`NewRecordFormat` page raises
`NotImplementedError` while parsing. -/
def rdGetRaw (data : List Nat) (small newFmt : Bool) (col : MColumn) :
    Except PyErr (Option (List Nat)) :=
  if data.length < 4 then .ok none
  else if rdTaggedDataStart data + 4 ≤ data.length ∧ newFmt = false then
    .error .notImplemented
  else if colIsFixed col then .ok (rdGetFixed data col)
  else if colIsVariable col then .ok (rdGetVariable data col)
  else
    match rdGetTagged data small col with
    | .error e => .error e
    | .ok (_, v) => .ok v

/-- A small-page record with no fixed and no variable values and a
single tagged field for column 256, flagged null: header
`(0, 127, 4)`, then the `TAGFLD` `0x20040100` (identifier 256, offset
4, `fNullSmallPage` set). -/
def nullTaggedRecord : List Nat := [0, 127, 4, 0, 0, 1, 4, 32]

/-! ## C7: `Page.iter_leaf_nodes` (`page.py` lines 131-156)

The walk yields leaf nodes identified as `(page_number, node_index)`
pairs.  On a leaf page the page's own nodes are yielded and the loop
variable `leaf` stays `None`, so no sibling chase happens there; on a
branch page each node's child subtree is walked in order, and — only
when the page carries the Root flag and the walk yielded something —
the page linked by the last yielded leaf's `next_page` is walked too.
`fuel` bounds the page-call depth; `none` means it ran out. -/

/-- The children loop of `iter_leaf_nodes` on a branch page: descend
into `node.child` for every node in order and concatenate the yields
(`page.py` lines 146-152).  The per-child iterator is a parameter so
that `iterLeafF` can pass itself at the next fuel level. -/
def walkWith (f : Nat → Option (List (Nat × Nat))) :
    List MNode → Option (List (Nat × Nat))
  | [] => some []
  | nd :: rest =>
    match nodeChild nd with
    | none => none
    | some c =>
      match f c with
      | none => none
      | some out1 =>
        match walkWith f rest with
        | none => none
        | some out2 => some (out1 ++ out2)

/-- `Page.iter_leaf_nodes`. -/
def iterLeafF (s : Store) : Nat → Nat → Option (List (Nat × Nat))
  | 0, _ => none
  | fuel + 1, pnum =>
    let p := s pnum
    if p.isLeaf then
      some ((List.range p.nodes.length).map fun i => (pnum, i))
    else
      match walkWith (iterLeafF s fuel) p.nodes with
      | none => none
      | some out =>
        match out.getLast? with
        | none => some out
        | some l =>
          if p.isRoot = true ∧ (s l.1).nextPage ≠ 0 then
            match iterLeafF s fuel ((s l.1).nextPage) with
            | none => none
            | some extra => some (out ++ extra)
          else some out

/-- Page `m` is reachable from page `n` through branch child pointers. -/
inductive Reach (s : Store) : Nat → Nat → Prop
  | refl (n : Nat) : Reach s n n
  | step {n c m : Nat} : (s n).isLeaf = false →
      (∃ nd ∈ (s n).nodes, nodeChild nd = some c) →
      Reach s c m → Reach s n m

/-- Two sibling branch entries lead into disjoint subtrees. -/
def SubtreesDisjoint (s : Store) (a b : MNode) : Prop :=
  ∀ c1 c2, nodeChild a = some c1 → nodeChild b = some c2 →
    ∀ x, Reach s c1 x → Reach s c2 x → False

/-! ## Theorems -/

theorem bytesLt_irrefl (a : List Nat) : bytesLt a a = false := by
  induction a with
  | nil => rfl
  | cons x xs ih => simp [bytesLt, ih]

theorem bytesLt_asymm {a b : List Nat} (h : bytesLt a b = true) :
    bytesLt b a = false := by
  induction a generalizing b with
  | nil =>
    cases b with
    | nil => simp [bytesLt] at h
    | cons y ys => rfl
  | cons x xs ih =>
    cases b with
    | nil => simp [bytesLt] at h
    | cons y ys =>
      simp only [bytesLt, Bool.or_eq_true, Bool.and_eq_true, beq_iff_eq,
        decide_eq_true_eq] at h
      rcases h with h | ⟨rfl, h⟩
      · have h1 : ¬ y < x := by omega
        have h2 : ¬ y = x := by omega
        simp [bytesLt, h1, h2]
      · simp [bytesLt, ih h]

theorem makeKeyLoop_spec (segs : List (Option (List Nat))) (r : Int) :
    (makeKeyLoop segs r).2 = r - ((makeKeyLoop segs r).1.flatten).length ∧
      (makeKeyLoop segs r).1.flatten <+: fullKey segs ∧
      (0 < (makeKeyLoop segs r).2 →
        (makeKeyLoop segs r).1.flatten = fullKey segs) := by
  induction segs generalizing r with
  | nil =>
    refine ⟨by simp [makeKeyLoop], by simp [makeKeyLoop], fun _ => by
      simp [makeKeyLoop, fullKey, fullSegments]⟩
  | cons o rest ih =>
    cases o with
    | none =>
      refine ⟨by simp [makeKeyLoop], ?_, fun _ => ?_⟩
      · simp [makeKeyLoop, fullKey, fullSegments]
      · simp [makeKeyLoop, fullKey, fullSegments]
    | some seg =>
      by_cases hle : r - (seg.length : Int) ≤ 0
      · have hloop : makeKeyLoop (some seg :: rest) r =
            ([seg], r - (seg.length : Int)) := by
          simp [makeKeyLoop, hle]
        refine ⟨?_, ?_, fun hpos => ?_⟩
        · rw [hloop]
          simp
        · rw [hloop]
          exact ⟨(fullSegments rest).flatten, by
            simp [fullKey, fullSegments]⟩
        · exfalso
          rw [hloop] at hpos
          omega
      · obtain ⟨ih1, ih2, ih3⟩ := ih (r - (seg.length : Int))
        have hloop : makeKeyLoop (some seg :: rest) r =
            (seg :: (makeKeyLoop rest (r - (seg.length : Int))).1,
              (makeKeyLoop rest (r - (seg.length : Int))).2) := by
          simp [makeKeyLoop, hle]
        refine ⟨?_, ?_, fun hpos => ?_⟩
        · rw [hloop]
          simp only [List.flatten_cons, List.length_append]
          omega
        · rw [hloop]
          obtain ⟨t, ht⟩ := ih2
          exact ⟨t, by
            simp only [List.flatten_cons, List.append_assoc, ht, fullKey,
              fullSegments, List.flatten_cons]⟩
        · rw [hloop] at hpos ⊢
          simp only [List.flatten_cons]
          rw [ih3 hpos]
          simp [fullKey, fullSegments]

/-- Truncating prefixes agree with truncating the whole string. -/
theorem prefix_take_eq {xs ys : List Nat} (h : xs <+: ys) {n : Nat}
    (hn : n ≤ xs.length) : xs.take n = ys.take n := by
  obtain ⟨t, rfl⟩ := h
  rw [List.take_append_of_le_length hn]

/-- **C8.** `Index.make_key` never returns more than `_key_most` bytes,
and whenever the concatenation of the per-column encoded segments
exceeds `_key_most` bytes the returned key is exactly that
concatenation truncated to `_key_most` bytes. -/
theorem make_key_respects_key_most (segs : List (Option (List Nat)))
    (keyMost : Nat) :
    (makeKey segs keyMost).length ≤ keyMost ∧
      ((fullKey segs).length > keyMost →
        makeKey segs keyMost = (fullKey segs).take keyMost) := by
  obtain ⟨h1, h2, h3⟩ := makeKeyLoop_spec segs (keyMost : Int)
  unfold makeKey
  set ps := (makeKeyLoop segs (keyMost : Int)).1 with hps
  set rf := (makeKeyLoop segs (keyMost : Int)).2 with hrf
  by_cases hneg : rf < 0
  · have hlen : keyMost ≤ ps.flatten.length := by omega
    rw [if_pos hneg]
    refine ⟨?_, fun _ => ?_⟩
    · simp only [List.length_take]
      omega
    · exact prefix_take_eq h2 hlen
  · have hlen : ps.flatten.length ≤ keyMost := by omega
    rw [if_neg hneg]
    refine ⟨hlen, fun hgt => ?_⟩
    have hr0 : ¬ 0 < rf := by
      intro hpos
      have hfl := congrArg List.length (h3 hpos)
      omega
    have hfl : ps.flatten.length = keyMost := by omega
    calc ps.flatten = ps.flatten.take keyMost := by
            rw [List.take_of_length_le (le_of_eq hfl)]
      _ = (fullKey segs).take keyMost := prefix_take_eq h2 (le_of_eq hfl.symm)

/-- **C8 witness.** A two-segment key of total length 5 against a
budget of 4 bytes is truncated to exactly 4 bytes. -/
theorem make_key_respects_key_most_witness :
    (fullKey [some [1, 2, 3], some [4, 5]]).length > 4 ∧
      makeKey [some [1, 2, 3], some [4, 5]] 4 =
        (fullKey [some [1, 2, 3], some [4, 5]]).take 4 :=
  ⟨by decide,
    (make_key_respects_key_most [some [1, 2, 3], some [4, 5]] 4).2 (by decide)⟩

/-- **C4 counterexample.** The specification's condition declares a
database with no valid shadow header invalid, but `EseDB.__init__`
constructs successfully: it never examines the shadow header. -/
theorem esedb_init_ignores_shadow :
    specInvalidDatabaseCond hdrNoShadow false = true ∧
      esedbInit hdrNoShadow false = .ok () := by
  constructor
  · decide
  · rfl

/-- **C4 (amended).** Construction fails with `InvalidDatabase` if and
only if the header magic differs from `0x89ABCDEF` or the format
revision major is below 9; the shadow header is never consulted. -/
theorem esedb_init_invalid_iff (hdr : DbHeader) (sh : Bool) :
    esedbInit hdr sh = .error .invalidDatabase ↔
      (hdr.ulMagic ≠ ulDAEMagic ∨ hdr.ulDaeUpdateMajor < 9) := by
  unfold esedbInit
  split_ifs with h1 h2
  · simp [h1]
  · simp [h1, h2]
  · simp [h1, h2]

/-- **C5 counterexample.** With `page_size = 4`, logical page 0 is read
from file offset 4 (physical page 2), not from offset `0 * page_size`
(physical page 1) as the claim states. -/
theorem page_zero_not_at_offset_zero :
    pageBytes fileFourPages 4 0 = .ok [4, 5, 6, 7] ∧
      (fileFourPages.drop (0 * 4)).take 4 = [0, 1, 2, 3] ∧
      ([4, 5, 6, 7] : List Nat) ≠ [0, 1, 2, 3] := by
  refine ⟨rfl, by decide, by decide⟩

/-- **C5 (amended).** `EseDB.page(n)` reads the physical page numbered
`n + 2` (physical pages 1-based), i.e. logical page `n` is parsed from
the `page_size` bytes starting at file offset `(n + 1) * page_size`. -/
theorem page_reads_physical_plus_two (file : List Nat) (ps n : Nat) :
    pageBytes file ps n =
      (if ((file.drop ((n + 1) * ps)).take ps).length ≠ ps
        then .error .pageOutOfRange
        else .ok ((file.drop ((n + 1) * ps)).take ps)) := by
  have h1 : ¬ n + 2 < 1 := by omega
  have h2 : n + 2 - 1 = n + 1 := by omega
  unfold pageBytes readPage
  rw [if_neg h1, h2]

/-! ## decompress_size on the LZXPRESS scheme (C9) -/

/-- **C9.** For every buffer whose high 5 bits of byte 0 select the
LZXPRESS scheme (3), `decompress_size` raises `struct.error`: it unpacks
`"<H"` from `buf[1:2]`, a one-byte slice, and never returns the 16-bit
size stored at bytes 1-2. -/
theorem decompress_size_xpress_struct_error (b0 : Nat) (rest : List Nat)
    (h : b0 >>> 3 = COMPRESS_XPRESS) :
    decompressSize (b0 :: rest) = .error .structError := by
  cases rest with
  | nil =>
    simp [decompressSize, h, unpackU16le, COMPRESS_7BITASCII,
      COMPRESS_7BITUNICODE, COMPRESS_XPRESS]
  | cons x xs =>
    simp [decompressSize, h, unpackU16le, COMPRESS_7BITASCII,
      COMPRESS_7BITUNICODE, COMPRESS_XPRESS]

/-- **C9 witness.** The buffer `18 34 12` selects scheme 3 and holds the
little-endian size `0x1234` at bytes 1-2, yet `decompress_size` fails
with `struct.error`. -/
theorem decompress_size_xpress_struct_error_witness :
    (0x18 >>> 3 = COMPRESS_XPRESS) ∧
      decompressSize [0x18, 0x34, 0x12] = .error .structError :=
  ⟨by decide, decompress_size_xpress_struct_error 0x18 [0x34, 0x12] (by decide)⟩

/-! ## C6: exact matches on branch pages -/

/-- The binary-search loop of `find_node` on a branch page whose node
keys are strictly sorted: whenever the search key equals the key of the
node at index `j` inside the current interval, the loop settles on the
entry after it, clamped to the last node of the page. -/
theorem findNodeLoop_exact (nodes : List MNode) (key : List Nat)
    (hsort : nodes.Pairwise (fun a b => bytesLt a.key b.key = true))
    (j : Nat) (hj : j < nodes.length) (hkey : nodes[j].key = key) :
    ∀ fuel first last, last - first < fuel → first ≤ j → j ≤ last →
      last ≤ nodes.length - 1 →
      (last = nodes.length - 1 ∨
        bytesLt key ((nodes.getD last default).key) = true) →
      findNodeLoop nodes true key fuel first last =
        min (j + 1) (nodes.length - 1) := by
  have hget : ∀ i k, i < nodes.length → k < nodes.length → i < k →
      bytesLt (nodes.getD i default).key (nodes.getD k default).key
        = true := by
    intro i k hi hk hik
    rw [List.getD_eq_getElem _ _ hi, List.getD_eq_getElem _ _ hk]
    have := List.pairwise_iff_get.mp hsort ⟨i, hi⟩ ⟨k, hk⟩ hik
    simpa using this
  have hkeyD : (nodes.getD j default).key = key := by
    rw [List.getD_eq_getElem _ _ hj]
    exact hkey
  intro fuel
  induction fuel with
  | zero =>
    intro first last hf _ _ _ _
    omega
  | succ fuel ih =>
    intro first last hf h1 h2 hbound hlast
    by_cases hfl : first < last
    · have hmlt : (first + last) / 2 < last := by omega
      have hmge : first ≤ (first + last) / 2 := by omega
      have hm : (first + last) / 2 < nodes.length := by omega
      simp only [findNodeLoop, if_pos hfl]
      by_cases hlt : bytesLt key ((nodes.getD ((first + last) / 2)
          default).key) = true
      · rw [if_pos hlt]
        have hjm : j < (first + last) / 2 := by
          by_contra hc
          rcases Nat.lt_or_ge ((first + last) / 2) j with hmj | hmj
          · have h := hget _ _ hm hj hmj
            rw [hkeyD] at h
            have hasym := bytesLt_asymm hlt
            rw [h] at hasym
            simp at hasym
          · have hje : j = (first + last) / 2 := by omega
            rw [← hje, hkeyD, bytesLt_irrefl] at hlt
            simp at hlt
        exact ih first ((first + last) / 2) (by omega) h1 (by omega)
          (by omega) (Or.inr hlt)
      · by_cases heq : key = (nodes.getD ((first + last) / 2) default).key
        · rw [if_neg hlt, if_pos heq]
          have hje : j = (first + last) / 2 := by
            rcases Nat.lt_trichotomy j ((first + last) / 2) with hc | hc | hc
            · have h := hget _ _ hj hm hc
              rw [hkeyD, ← heq, bytesLt_irrefl] at h
              simp at h
            · exact hc
            · have h := hget _ _ hm hj hc
              rw [hkeyD, ← heq, bytesLt_irrefl] at h
              simp at h
          rw [hje]
          simp
        · rw [if_neg hlt, if_neg heq]
          have hjm : (first + last) / 2 < j := by
            rcases Nat.lt_trichotomy j ((first + last) / 2) with hc | hc | hc
            · have h := hget _ _ hj hm hc
              rw [hkeyD] at h
              exact absurd h hlt
            · exfalso
              apply heq
              rw [← hc, hkeyD]
            · exact hc
          exact ih ((first + last) / 2 + 1) last (by omega) (by omega) h2
            hbound hlast
    · simp only [findNodeLoop, if_neg hfl]
      have hje : j = first := by omega
      rcases hlast with hl | hl
      · omega
      · exfalso
        have hjl : last = j := by omega
        rw [hjl, hkeyD, bytesLt_irrefl] at hl
        simp at hl

/-- **C6.**  On a branch page with strictly sorted node keys, when the
search key exactly equals the key of node `j`, `find_node` descends
through the branch entry *following* the matched one, with its index
clamped to the last node of the page — for every position `j`,
including matches only reached at the end of the binary search. -/
theorem find_node_branch_exact_descends_next (p : MPage) (key : List Nat)
    (j : Nat)
    (hb : p.isLeaf = false)
    (hsort : p.nodes.Pairwise (fun a b => bytesLt a.key b.key = true))
    (hj : j < p.nodes.length) (hkey : p.nodes[j].key = key) :
    findNodeIdx p key = min (j + 1) (p.nodes.length - 1) := by
  unfold findNodeIdx
  rw [hb]
  exact findNodeLoop_exact p.nodes key hsort j hj hkey p.nodes.length 0
    (p.nodes.length - 1) (by omega) (by omega) (by omega) (by omega)
    (Or.inl rfl)

/-- **C6 witness.**  On a three-node branch page with keys `[1] < [2] <
[3]`, a search for `[2]` (the key of node 1) settles on node 2; a
search for `[3]` (the key of the last node) is clamped onto that same
last node. -/
theorem find_node_branch_exact_descends_next_witness :
    findNodeIdx ⟨false, false, 0, 0,
        [⟨[1], [5, 0, 0, 0]⟩, ⟨[2], [6, 0, 0, 0]⟩, ⟨[3], [7, 0, 0, 0]⟩]⟩
        [2] = min (1 + 1) (3 - 1) ∧
      findNodeIdx ⟨false, false, 0, 0,
        [⟨[1], [5, 0, 0, 0]⟩, ⟨[2], [6, 0, 0, 0]⟩, ⟨[3], [7, 0, 0, 0]⟩]⟩
        [3] = min (2 + 1) (3 - 1) :=
  ⟨find_node_branch_exact_descends_next _ [2] 1 rfl (by decide) (by decide)
      rfl,
    find_node_branch_exact_descends_next _ [3] 2 rfl (by decide) (by decide)
      rfl⟩

/-- **C2 counterexample.**  On the tree rooted at page 1, a cursor that
previously searched `[2]` sits on page 3; searching `[0]` from there
ends on `(3, 0)`, while the same search from the root ends on `(2, 0)`:
the prior cursor position changes the post-state of `search`. -/
theorem btree_search_prior_position_matters :
    btSearchPos ceStore 10 1 [2] = some (3, 0) ∧
      btSearchPos ceStore 10 3 [0] = some (3, 0) ∧
      btSearchPos ceStore 10 1 [0] = some (2, 0) ∧
      some ((3 : Nat), (0 : Nat)) ≠ some ((2 : Nat), (0 : Nat)) := by
  refine ⟨rfl, rfl, rfl, by decide⟩

/-- **C2 (amended).**  The post-state of `search` depends only on
`(tree, key)` for cursors positioned at the root — e.g. immediately
after `reset` — because the descent starts from the cursor's current
page; in general a prior search leaves the cursor elsewhere and can
change the result (see the counterexample). -/
theorem btree_search_deterministic_after_reset (s : Store) (root fuel : Nat)
    (key : List Nat) (c1 c2 : BTreeState) :
    btSearchPost s fuel key (btReset root c1) =
      btSearchPost s fuel key (btReset root c2) := rfl

/-- **C1.**  `Index.search` never returns a record: the `Cursor`
construction inside `search_key` always raises `TypeError`, because
`Cursor.__init__` takes a single `Index` argument while `search_key`
passes `(esedb, root_page)`. -/
theorem index_search_always_type_error (s : Store) (rootPage fuel : Nat)
    (segs : List (Option (List Nat))) (keyMost : Nat) :
    indexSearch s rootPage fuel segs keyMost = .error .typeError := rfl

/-- **C3.**  On a three-chunk blob whose every chunk's stored length
equals `next_chunk_offset − current_chunk_offset` (so nothing should be
decompressed per the claim), `get_long_value` nevertheless passes the
third chunk to decompression: the loop accumulates
`chunk_offset += next_chunk_offset` instead of tracking the current
chunk's key offset, so from the third chunk on the comparison uses a
wrong base. -/
theorem get_long_value_flags_third_chunk :
    getLongValueFlags [1, 2, 3, 4] 30 lvRestThree
        = some [false, false, true] ∧
      specChunkFlags ((lvRestThree.take 3).map (·.data)) [0, 10, 20] 30
        = [false, false, false] ∧
      some [false, false, true] ≠ some [false, false, false] := by
  refine ⟨by decide, by decide, by decide⟩

/-- **C10.**  Retrieving the null-flagged tagged column 256 with
`raw=True` does not return `None` (the stored value being absent):
`_get_tagged` never assigns its local `value` on the null path, so the
call raises `UnboundLocalError`. -/
theorem record_get_raw_null_tagged_unbound :
    rdGetRaw nullTaggedRecord true true ⟨256, 0, 0, none⟩
        = .error .unboundLocal ∧
      Except.error PyErr.unboundLocal
        ≠ (Except.ok none : Except PyErr (Option (List Nat))) :=
  ⟨rfl, fun h => Except.noConfusion h⟩

theorem Reach.eq_of_leaf {s : Store} {n m : Nat}
    (hl : (s n).isLeaf = true) (h : Reach s n m) : m = n := by
  cases h with
  | refl => rfl
  | step hleaf _ _ => simp [hl] at hleaf

/-- The leaf-page yield never repeats a node. -/
theorem leafYield_count (p n : Nat) (x : Nat × Nat) :
    ((List.range n).map fun i => (p, i)).count x ≤ 1 := by
  induction n with
  | zero => simp
  | succ n ih =>
    rw [List.range_succ, List.map_append, List.count_append]
    by_cases hx : x = (p, n)
    · have h0 : ((List.range n).map fun i => (p, i)).count x = 0 := by
        apply List.count_eq_zero_of_not_mem
        intro hmem
        obtain ⟨i, hi, he⟩ := List.mem_map.mp hmem
        rw [hx] at he
        have : i = n := by
          have := congrArg Prod.snd he
          simpa using this
        subst this
        exact absurd (List.mem_range.mp hi) (by omega)
      have h1 : (List.map (fun i => (p, i)) [n]).count x ≤ 1 := by
        simp [hx]
      omega
    · have h1 : (List.map (fun i => (p, i)) [n]).count x = 0 := by
        apply List.count_eq_zero_of_not_mem
        simp only [List.map_cons, List.map_nil, List.mem_singleton]
        exact fun h => hx h
      omega

theorem walkWith_mono {f g : Nat → Option (List (Nat × Nat))}
    (hfg : ∀ c r, f c = some r → g c = some r) :
    ∀ l r, walkWith f l = some r → walkWith g l = some r := by
  intro l
  induction l with
  | nil =>
    intro r h
    exact h
  | cons nd rest ih =>
    intro r h
    simp only [walkWith] at h ⊢
    cases hc : nodeChild nd with
    | none =>
      simp only [hc] at h
      exact Option.noConfusion h
    | some c =>
      simp only [hc] at h ⊢
      cases h1 : f c with
      | none =>
        simp only [h1] at h
        exact Option.noConfusion h
      | some out1 =>
        simp only [h1] at h
        simp only [hfg c out1 h1]
        cases h2 : walkWith f rest with
        | none =>
          simp only [h2] at h
          exact Option.noConfusion h
        | some out2 =>
          simp only [h2] at h
          simp only [ih out2 h2]
          exact h

theorem iterLeafF_mono (s : Store) :
    ∀ fuel fuel', fuel ≤ fuel' → ∀ p r,
      iterLeafF s fuel p = some r → iterLeafF s fuel' p = some r := by
  intro fuel
  induction fuel with
  | zero =>
    intro fuel' _ p r h
    simp [iterLeafF] at h
  | succ fuel ih =>
    intro fuel' hle p r h
    obtain ⟨f', rfl⟩ : ∃ f', fuel' = f' + 1 := ⟨fuel' - 1, by omega⟩
    have hle' : fuel ≤ f' := by omega
    simp only [iterLeafF] at h ⊢
    by_cases hleaf : (s p).isLeaf = true
    · rw [if_pos hleaf] at h ⊢
      exact h
    · rw [if_neg hleaf] at h ⊢
      cases hw : walkWith (iterLeafF s fuel) (s p).nodes with
      | none =>
        simp only [hw] at h
        exact Option.noConfusion h
      | some out =>
        simp only [hw] at h
        simp only [walkWith_mono (fun c r hc => ih f' hle' c r hc) _ out hw]
        cases hl : out.getLast? with
        | none =>
          simp only [hl] at h ⊢
          exact h
        | some l =>
          simp only [hl] at h ⊢
          by_cases hcond : (s p).isRoot = true ∧ (s l.1).nextPage ≠ 0
          · rw [if_pos hcond] at h ⊢
            cases hch : iterLeafF s fuel ((s l.1).nextPage) with
            | none =>
              simp only [hch] at h
              exact Option.noConfusion h
            | some extra =>
              simp only [hch] at h
              simp only [ih f' hle' _ extra hch]
              exact h
          · rw [if_neg hcond] at h ⊢
            exact h

/-- Properties of the children walk of one branch page: every yield is
a node of a leaf page reachable through some entry of the (sub)list,
and — because sibling subtrees are disjoint — no yield repeats. -/
theorem walkWith_props (s : Store) (root p : Nat)
    (Hchild : ∀ nd ∈ (s p).nodes, ∃ c, nodeChild nd = some c ∧ c ≠ root)
    (f : Nat → Option (List (Nat × Nat)))
    (IH : ∀ c r, c ≠ root → f c = some r →
      (∀ x ∈ r, Reach s c x.1 ∧ (s x.1).isLeaf = true) ∧
        (∀ x, r.count x ≤ 1)) :
    ∀ l, (∀ nd ∈ l, nd ∈ (s p).nodes) → l.Pairwise (SubtreesDisjoint s) →
      ∀ out, walkWith f l = some out →
        (∀ x ∈ out,
          (∃ nd ∈ l, ∃ c, nodeChild nd = some c ∧ Reach s c x.1) ∧
            (s x.1).isLeaf = true) ∧
          (∀ x, out.count x ≤ 1) := by
  intro l
  induction l with
  | nil =>
    intro _ _ out hout
    obtain rfl : ([] : List (Nat × Nat)) = out := Option.some.inj hout
    exact ⟨fun x hx => absurd hx (by simp), fun x => by simp⟩
  | cons nd rest ih =>
    intro hmem hpw out hout
    simp only [walkWith] at hout
    cases hc : nodeChild nd with
    | none =>
      simp only [hc] at hout
      exact Option.noConfusion hout
    | some c =>
      simp only [hc] at hout
      cases h1 : f c with
      | none =>
        simp only [h1] at hout
        exact Option.noConfusion hout
      | some out1 =>
        simp only [h1] at hout
        cases h2 : walkWith f rest with
        | none =>
          simp only [h2] at hout
          exact Option.noConfusion hout
        | some out2 =>
          simp only [h2] at hout
          obtain rfl := Option.some.inj hout
          have hcne : c ≠ root := by
            obtain ⟨c', hc', hcne⟩ := Hchild nd (hmem nd (by simp))
            rw [hc] at hc'
            obtain rfl := Option.some.inj hc'
            exact hcne
          have H1 := IH c out1 hcne h1
          have H2 := ih (fun nd' h' => hmem nd' (List.mem_cons_of_mem _ h'))
            (List.pairwise_cons.mp hpw).2 out2 h2
          constructor
          · intro x hx
            rcases List.mem_append.mp hx with hx1 | hx2
            · exact ⟨⟨nd, by simp, c, hc, (H1.1 x hx1).1⟩, (H1.1 x hx1).2⟩
            · obtain ⟨⟨nd', hnd', c', hc', hr'⟩, hlf⟩ := H2.1 x hx2
              exact ⟨⟨nd', List.mem_cons_of_mem _ hnd', c', hc', hr'⟩, hlf⟩
          · intro x
            rw [List.count_append]
            have hc1 := H1.2 x
            have hc2 := H2.2 x
            by_cases hz : 0 < out1.count x ∧ 0 < out2.count x
            · exfalso
              have hx1 : x ∈ out1 := List.count_pos_iff.mp hz.1
              have hx2 : x ∈ out2 := List.count_pos_iff.mp hz.2
              have hr1 : Reach s c x.1 := (H1.1 x hx1).1
              obtain ⟨⟨nd', hnd', c', hc', hr'⟩, _⟩ := H2.1 x hx2
              have hd : SubtreesDisjoint s nd nd' :=
                (List.pairwise_cons.mp hpw).1 nd' hnd'
              exact hd c c' hc hc' x.1 hr1 hr'
            · omega

/-- Every walk of a non-root subtree yields only reachable leaf nodes,
each at most once.  (Non-root pages never trigger the sibling chase, by
`Hroot`.) -/
theorem iterLeafF_props (s : Store) (root : Nat)
    (Hroot : ∀ n, n ≠ root → (s n).isRoot = false)
    (Hchild : ∀ n, (s n).isLeaf = false → ∀ nd ∈ (s n).nodes,
      ∃ c, nodeChild nd = some c ∧ c ≠ root)
    (Hdisj : ∀ n, (s n).isLeaf = false →
      (s n).nodes.Pairwise (SubtreesDisjoint s)) :
    ∀ fuel p r, p ≠ root → iterLeafF s fuel p = some r →
      (∀ x ∈ r, Reach s p x.1 ∧ (s x.1).isLeaf = true) ∧
        (∀ x, r.count x ≤ 1) := by
  intro fuel
  induction fuel with
  | zero =>
    intro p r _ h
    simp [iterLeafF] at h
  | succ fuel ih =>
    intro p r hp h
    simp only [iterLeafF] at h
    by_cases hleaf : (s p).isLeaf = true
    · rw [if_pos hleaf] at h
      obtain rfl := Option.some.inj h
      constructor
      · intro x hx
        obtain ⟨i, _, rfl⟩ := List.mem_map.mp hx
        exact ⟨Reach.refl p, hleaf⟩
      · intro x
        exact leafYield_count p (s p).nodes.length x
    · rw [if_neg hleaf] at h
      have hbleaf : (s p).isLeaf = false := by
        revert hleaf
        cases (s p).isLeaf <;> simp
      cases hw : walkWith (iterLeafF s fuel) (s p).nodes with
      | none =>
        simp only [hw] at h
        exact Option.noConfusion h
      | some out =>
        simp only [hw] at h
        have hwalk := walkWith_props s root p (Hchild p hbleaf)
          (iterLeafF s fuel) (fun c r' hc h' => ih c r' hc h')
          (s p).nodes (fun _ hh => hh) (Hdisj p hbleaf) out hw
        have hprops :
            (∀ x ∈ out, Reach s p x.1 ∧ (s x.1).isLeaf = true) ∧
              (∀ x, out.count x ≤ 1) := by
          refine ⟨fun x hx => ?_, hwalk.2⟩
          obtain ⟨⟨nd', hnd', c', hc', hr'⟩, hlf⟩ := hwalk.1 x hx
          exact ⟨Reach.step hbleaf ⟨nd', hnd', hc'⟩ hr', hlf⟩
        cases hl : out.getLast? with
        | none =>
          simp only [hl] at h
          obtain rfl := Option.some.inj h
          exact hprops
        | some l =>
          simp only [hl] at h
          rw [if_neg (by simp [Hroot p hp])] at h
          obtain rfl := Option.some.inj h
          exact hprops

theorem walkWith_isSome (f : Nat → Option (List (Nat × Nat))) :
    ∀ l : List MNode,
      (∀ nd ∈ l, ∃ c, nodeChild nd = some c ∧ (f c).isSome) →
      (walkWith f l).isSome := by
  intro l
  induction l with
  | nil =>
    intro _
    simp [walkWith]
  | cons nd rest ih =>
    intro hl
    obtain ⟨c, hc, hfc⟩ := hl nd (by simp)
    obtain ⟨out1, h1⟩ := Option.isSome_iff_exists.mp hfc
    have hrest := ih (fun nd' h' => hl nd' (List.mem_cons_of_mem _ h'))
    obtain ⟨out2, h2⟩ := Option.isSome_iff_exists.mp hrest
    simp [walkWith, hc, h1, h2]

/-- Any page other than the root — whose child edges strictly decrease
the height `hgt` — yields successfully once the fuel exceeds its
height: the walk of a non-root subtree terminates. -/
theorem iterLeafF_isSome (s : Store) (root : Nat) (hgt : Nat → Nat)
    (Hroot : ∀ n, n ≠ root → (s n).isRoot = false)
    (Hchild : ∀ n, (s n).isLeaf = false → ∀ nd ∈ (s n).nodes,
      ∃ c, nodeChild nd = some c ∧ hgt c < hgt n ∧ c ≠ root) :
    ∀ fuel p, p ≠ root → hgt p < fuel → (iterLeafF s fuel p).isSome := by
  intro fuel
  induction fuel with
  | zero =>
    intro p _ h
    omega
  | succ fuel ih =>
    intro p hp hfuel
    simp only [iterLeafF]
    by_cases hleaf : (s p).isLeaf = true
    · rw [if_pos hleaf]
      simp
    · rw [if_neg hleaf]
      have hbleaf : (s p).isLeaf = false := by
        revert hleaf
        cases (s p).isLeaf <;> simp
      have hw : (walkWith (iterLeafF s fuel) (s p).nodes).isSome := by
        apply walkWith_isSome
        intro nd hnd
        obtain ⟨c, hc, hlt, hcne⟩ := Hchild p hbleaf nd hnd
        exact ⟨c, hc, ih c hcne (by omega)⟩
      obtain ⟨out, hout⟩ := Option.isSome_iff_exists.mp hw
      simp only [hout]
      cases hl : out.getLast? with
      | none => simp
      | some l => simp [Hroot p hp]

/-- **C7.**  For every tree of pages reachable from a root page —
formalised by: child edges strictly decrease a height measure, sibling
subtrees are disjoint, only the root carries the Root flag, and no leaf
sibling pointer leads back to the root — `iter_leaf_nodes()` terminates
(some fuel suffices), and every leaf node is yielded at most twice. -/
theorem iter_leaf_nodes_terminates_at_most_twice
    (s : Store) (root : Nat) (hgt : Nat → Nat)
    (Hroot : ∀ n, n ≠ root → (s n).isRoot = false)
    (Hchild : ∀ n, (s n).isLeaf = false → ∀ nd ∈ (s n).nodes,
      ∃ c, nodeChild nd = some c ∧ hgt c < hgt n ∧ c ≠ root)
    (Hnext : ∀ n, (s n).isLeaf = true → (s n).nextPage ≠ root)
    (Hdisj : ∀ n, (s n).isLeaf = false →
      (s n).nodes.Pairwise (SubtreesDisjoint s)) :
    ∃ fuel r, iterLeafF s fuel root = some r ∧ ∀ x, r.count x ≤ 2 := by
  have Hchild' : ∀ n, (s n).isLeaf = false → ∀ nd ∈ (s n).nodes,
      ∃ c, nodeChild nd = some c ∧ c ≠ root := by
    intro n hn nd hnd
    obtain ⟨c, hc, _, hcne⟩ := Hchild n hn nd hnd
    exact ⟨c, hc, hcne⟩
  by_cases hleaf : (s root).isLeaf = true
  · refine ⟨1, (List.range (s root).nodes.length).map fun i => (root, i),
      ?_, fun x => le_trans (leafYield_count root (s root).nodes.length x)
        (by omega)⟩
    simp only [iterLeafF]
    rw [if_pos hleaf]
  · have hbleaf : (s root).isLeaf = false := by
      revert hleaf
      cases (s root).isLeaf <;> simp
    have hw : (walkWith (iterLeafF s (hgt root)) (s root).nodes).isSome := by
      apply walkWith_isSome
      intro nd hnd
      obtain ⟨c, hc, hlt, hcne⟩ := Hchild root hbleaf nd hnd
      exact ⟨c, hc,
        iterLeafF_isSome s root hgt Hroot Hchild (hgt root) c hcne hlt⟩
    obtain ⟨out, hout⟩ := Option.isSome_iff_exists.mp hw
    have hwalk := walkWith_props s root root (Hchild' root hbleaf)
      (iterLeafF s (hgt root))
      (fun c r' hc h' =>
        iterLeafF_props s root Hroot Hchild' Hdisj (hgt root) c r' hc h')
      (s root).nodes (fun _ hh => hh) (Hdisj root hbleaf) out hout
    cases hl : out.getLast? with
    | none =>
      refine ⟨hgt root + 1, out, ?_, fun x => le_trans (hwalk.2 x) (by omega)⟩
      simp only [iterLeafF]
      rw [if_neg hleaf]
      simp only [hout, hl]
    | some l =>
      by_cases hcond : (s root).isRoot = true ∧ (s l.1).nextPage ≠ 0
      · have hlmem : l ∈ out := List.mem_of_getLast?_eq_some hl
        have hlleaf : (s l.1).isLeaf = true := (hwalk.1 l hlmem).2
        have hqne : (s l.1).nextPage ≠ root := Hnext l.1 hlleaf
        have hch : (iterLeafF s (hgt ((s l.1).nextPage) + 1)
            ((s l.1).nextPage)).isSome :=
          iterLeafF_isSome s root hgt Hroot Hchild _ _ hqne (by omega)
        obtain ⟨extra, hextra⟩ := Option.isSome_iff_exists.mp hch
        have hexprops := iterLeafF_props s root Hroot Hchild' Hdisj
          _ _ extra hqne hextra
        have hout' : walkWith
            (iterLeafF s (max (hgt root) (hgt ((s l.1).nextPage) + 1)))
            (s root).nodes = some out :=
          walkWith_mono
            (fun c r' h' => iterLeafF_mono s (hgt root) _ (by omega) c r' h')
            _ out hout
        have hextra' : iterLeafF s
              (max (hgt root) (hgt ((s l.1).nextPage) + 1))
              ((s l.1).nextPage) = some extra :=
          iterLeafF_mono s (hgt ((s l.1).nextPage) + 1) _ (by omega) _
            extra hextra
        refine ⟨max (hgt root) (hgt ((s l.1).nextPage) + 1) + 1,
          out ++ extra, ?_, ?_⟩
        · simp only [iterLeafF]
          rw [if_neg hleaf]
          simp only [hout', hl]
          rw [if_pos hcond]
          simp only [hextra']
        · intro x
          rw [List.count_append]
          have h1 := hwalk.2 x
          have h2 := hexprops.2 x
          omega
      · refine ⟨hgt root + 1, out, ?_,
          fun x => le_trans (hwalk.2 x) (by omega)⟩
        simp only [iterLeafF]
        rw [if_neg hleaf]
        simp only [hout, hl]
        rw [if_neg hcond]

theorem ceStore_eq_default (n : Nat) (h1 : n ≠ 1) (h2 : n ≠ 2)
    (h3 : n ≠ 3) : ceStore n = default := by
  simp [ceStore, h1, h2, h3]

/-- **C7 witness.**  The three-page tree of `ceStore` (branch root 1
over leaves 2 and 3) satisfies the tree hypotheses, so its walk
terminates and yields every leaf node at most twice. -/
theorem iter_leaf_nodes_terminates_at_most_twice_witness :
    ∃ fuel r, iterLeafF ceStore fuel 1 = some r ∧ ∀ x, r.count x ≤ 2 := by
  apply iter_leaf_nodes_terminates_at_most_twice ceStore 1
    (fun n => if n = 1 then 1 else 0)
  · intro n hn
    by_cases h2 : n = 2
    · subst h2; rfl
    by_cases h3 : n = 3
    · subst h3; rfl
    rw [ceStore_eq_default n hn h2 h3]
    rfl
  · intro n hleaf nd hnd
    by_cases h1 : n = 1
    · subst h1
      have hmem : nd = (⟨[1], [2, 0, 0, 0]⟩ : MNode)
          ∨ nd = (⟨[2], [3, 0, 0, 0]⟩ : MNode) := by
        simpa [ceStore, ceRootPage] using hnd
      rcases hmem with rfl | rfl
      · exact ⟨2, rfl, by decide, by decide⟩
      · exact ⟨3, rfl, by decide, by decide⟩
    by_cases h2 : n = 2
    · subst h2
      simp [ceStore, ceLeafA] at hleaf
    by_cases h3 : n = 3
    · subst h3
      simp [ceStore, ceLeafB] at hleaf
    · rw [ceStore_eq_default n h1 h2 h3] at hnd
      have hnil : (default : MPage).nodes = [] := rfl
      rw [hnil] at hnd
      exact absurd hnd (List.not_mem_nil nd)
  · intro n hleaf
    by_cases h1 : n = 1
    · subst h1
      simp [ceStore, ceRootPage] at hleaf
    by_cases h2 : n = 2
    · subst h2
      decide
    by_cases h3 : n = 3
    · subst h3
      decide
    · rw [ceStore_eq_default n h1 h2 h3]
      decide
  · intro n hleaf
    by_cases h1 : n = 1
    · subst h1
      have hn : (ceStore 1).nodes =
          [⟨[1], [2, 0, 0, 0]⟩, ⟨[2], [3, 0, 0, 0]⟩] := rfl
      rw [hn]
      refine List.Pairwise.cons ?_
        (List.Pairwise.cons (by simp) List.Pairwise.nil)
      intro b hb
      have hb' : b = (⟨[2], [3, 0, 0, 0]⟩ : MNode) := by simpa using hb
      subst hb'
      intro c1 c2 hc1 hc2 x hr1 hr2
      have e1 : (2 : Nat) = c1 := Option.some.inj hc1
      have e2 : (3 : Nat) = c2 := Option.some.inj hc2
      subst e1
      subst e2
      have hx2 : x = 2 := Reach.eq_of_leaf rfl hr1
      have hx3 : x = 3 := Reach.eq_of_leaf rfl hr2
      omega
    by_cases h2 : n = 2
    · subst h2
      simp [ceStore, ceLeafA] at hleaf
    by_cases h3 : n = 3
    · subst h3
      simp [ceStore, ceLeafB] at hleaf
    · rw [ceStore_eq_default n h1 h2 h3]
      exact List.Pairwise.nil

end EseDB
